import Mathlib

/-!
Verification development for the `DataEntry` core of the
DNN_Localization_And_Separation repository (`src/data_entry.py`).

The Python code is shallowly embedded: numpy 1-D arrays become `List ℝ`
(or `List ℤ` for integer angle data), 2-D arrays become `List (List _)`
row-major, with row index = time frame and column index = frequency
channel, matching the `(time, freq)` orientation of the source.  numpy
`argmax` / `argmin` return the first index attaining the extremum; the
helpers below reproduce that tie-break.  Configuration constants that live
in the repository's `parameters.py` (absent from the sources at hand) are
taken as explicit arguments, except `NUM_OF_DIRECTIONS`, which is pinned
below from the spec's angle grid.
-/

namespace DataEntry

/-- Maximum of a list of reals, as numpy `max` on a non-empty array;
`0` is returned for `[]` (numpy raises there, a case never exercised). -/
noncomputable def listMax : List ℝ → ℝ
  | [] => 0
  | [x] => x
  | x :: y :: t => max x (listMax (y :: t))

/-- First index attaining the maximum, as numpy `argmax` (first index wins
ties); `0` for `[]`. -/
noncomputable def listArgmax : List ℝ → ℕ
  | [] => 0
  | [_] => 0
  | x :: y :: t => if listMax (y :: t) ≤ x then 0 else listArgmax (y :: t) + 1

/-- Minimum of a list of reals, as numpy `min`; `0` for `[]`. -/
noncomputable def listMin : List ℝ → ℝ
  | [] => 0
  | [x] => x
  | x :: y :: t => min x (listMin (y :: t))

/-- First index attaining the minimum, as numpy `argmin` (first index wins
ties); `0` for `[]`. -/
noncomputable def listArgmin : List ℝ → ℕ
  | [] => 0
  | [_] => 0
  | x :: y :: t => if x ≤ listMin (y :: t) then 0 else listArgmin (y :: t) + 1

/-- Modelled from the spec: `parameters.NUM_OF_DIRECTIONS`, the number of
discretized directions, is absent from the sources at hand (`parameters.py`
is not included); the spec fixes the azimuth grid {-90, -85, ..., 90} at
step 5, which has 37 directions, and uses class index K = number of
directions as the noise class. -/
def NUM_OF_DIRECTIONS : ℕ := 37

/-- `DataEntry.getAngleIdx`: `int((angle+90)/5)`.  For the grid angles
(-90 ≤ angle ≤ 90) the Python float-division-then-truncation agrees with
integer division followed by `toNat`. -/
def getAngleIdx (angle : ℤ) : ℕ := ((angle + 90) / 5).toNat

/-- `DataEntry.getAngleFromIdx`: `angle_idx*5-90`. -/
def getAngleFromIdx (angle_idx : ℕ) : ℤ := (angle_idx : ℤ) * 5 - 90

/-- Python `range(start, stop, step)` for a positive `step`: the list
`start, start+step, ...` while below `stop`. -/
def pythonRange (start stop step : ℤ) : List ℤ :=
  (List.range ((stop - start + step - 1) / step).toNat).map
    (fun (i : ℕ) => start + step * (i : ℤ))

/-- The candidate list of `DataEntry.getRandomAngle`:
`list(range(MIN_ANGLE, MAX_ANGLE + STEP, STEP))` with the forbidden angles
removed.  `random.choice` then picks some element of this list, so the
returned angle is modelled as an arbitrary member. -/
def getRandomAnglePossible (forbidden : List ℤ) : List ℤ :=
  (pythonRange (-90) (90 + 5) 5).filter (fun a => a ∉ forbidden)

/-- A run of the angle allocator across one mixture, as performed by
`DataEntry.__init__`: `self.angles.append(getRandomAngle(self.angles))`,
so the i-th drawn angle is some member of the candidate list computed from
the first i angles. -/
def validAngleTrace (as : List ℤ) : Prop :=
  ∀ i, i < as.length → as.getD i 0 ∈ getRandomAnglePossible (as.take i)

/-- The distinct values of a list of naturals in ascending order, as
`numpy.unique` returns them for the (whole-numbered) entries of
`mixed_ibm`. -/
def sortedUnique (l : List ℕ) : List ℕ :=
  (List.range (l.foldr max 0 + 1)).filter (fun v => v ∈ l)

/-- One decoded mask of `DataEntry.mixedIbmToIbms`:
`ibm = zeros(shape); ibm[mixed_ibm == v] = 1`. -/
def maskOfClass (mixed_ibm : List (List ℕ)) (v : ℕ) : List (List ℕ) :=
  mixed_ibm.map (fun row => row.map (fun x => if x = v then 1 else 0))

/-- `DataEntry.mixedIbmToIbms`.  `numpy.unique(mixed_ibm, return_counts=True)`
yields the distinct values in ascending order together with their pixel
counts; the loop skips a value when its count is below
`MIXED_IBM_IDENTIFICATION_TH` (taken as the argument `TH`, the constant
lives in the absent `parameters.py`) or when the value reaches
`NUM_OF_DIRECTIONS` (argument `ND`), and otherwise appends the binary mask
of the value and `getAngleFromIdx` of the value; appending under those
guards is written as a filter followed by maps. -/
def mixedIbmToIbms (TH ND : ℕ) (mixed_ibm : List (List ℕ)) :
    List (List (List ℕ)) × List ℤ :=
  let angle_ind := sortedUnique mixed_ibm.flatten
  let keep := angle_ind.filter (fun v => ¬ (mixed_ibm.flatten.count v < TH) ∧ ¬ (ND ≤ v))
  (keep.map (maskOfClass mixed_ibm), keep.map (fun v => getAngleFromIdx v))

/-- Entry of a 2-D (time × frequency) array at `[t, f]`. -/
def binGet (m : List (List ℕ)) (t f : ℕ) : ℕ := (m.getD t []).getD f 0

/-- `DataEntry.dnnTargetToMixedIbm`: `mixed_ibm` has shape
`(dnn_target[0].shape[0], len(dnn_target))` and
`mixed_ibm[t, f] = dnn_target[f][t, :].argmax()`. -/
noncomputable def dnnTargetToMixedIbm (dnn_target : List (List (List ℝ))) :
    List (List ℕ) :=
  (List.range (dnn_target.getD 0 []).length).map (fun time_dim =>
    (List.range dnn_target.length).map (fun freq_dim =>
      listArgmax ((dnn_target.getD freq_dim []).getD time_dim [])))

/-- A row of zeros of width `W` with a `1` written at column `c`, the form
every row of a target array takes after `DataEntry.updateTargetsFromSignals`
sets a single entry of a zero row to 1.  (When `c ≥ W` the row stays all
zero; numpy would raise there, a case never exercised by grid angles.) -/
def oneHotRowR (W c : ℕ) : List ℝ :=
  (List.range W).map (fun k => if k = c then (1 : ℝ) else 0)

/-- `c` marks the unique `1` of a one-hot row: the row is `1` at column `c`
and `0` at every other column. -/
def IsOneHotAt (row : List ℝ) (c : ℕ) : Prop :=
  c < row.length ∧ ∀ k, k < row.length → row.getD k 0 = if k = c then 1 else 0

/-- Value of the `j`-th source's spectrogram at bin `(t, f)`. -/
def sgramVal (sgrams : List (List (List ℝ))) (j t f : ℕ) : ℝ :=
  ((sgrams.getD j []).getD t []).getD f 0

/-- The per-bin labeling loop of `DataEntry.updateTargetsFromSignals`,
taking the per-source spectrograms, the source angles and the noise
spectrogram as inputs (the spectrograms themselves are produced by the
external `features.getSpectrogram`).  For each frequency channel `out_ind`
and time frame `time_ind`, the K source magnitudes at that bin are
collected, `max_ind`/`max_val` are their numpy argmax/max, and the row of
`targets[out_ind]` becomes one-hot at the last column (`ND`, the noise
class) when `max_val < noise_th` with
`noise_th = noise_sgram[t, f] * 10**(SGRAM_NOISE_TH_dB / 10)`, else
one-hot at `getAngleIdx(angles[max_ind])`.  `SGRAM_NOISE_TH_dB` (from the
absent `parameters.py`) is the argument `dbTh`. -/
noncomputable def updateTargetsFromSignals (ND : ℕ) (dbTh : ℝ)
    (sgrams : List (List (List ℝ))) (angles : List ℤ)
    (noise_sgram : List (List ℝ)) : List (List (List ℝ)) :=
  (List.range ((sgrams.getD 0 []).getD 0 []).length).map (fun out_ind =>
    (List.range (sgrams.getD 0 []).length).map (fun time_ind =>
      let sgram_vals := sgrams.map (fun sgram => (sgram.getD time_ind []).getD out_ind 0)
      let max_ind := listArgmax sgram_vals
      let max_val := listMax sgram_vals
      let angle_ind := getAngleIdx (angles.getD max_ind 0)
      let noise_th := ((noise_sgram.getD time_ind []).getD out_ind 0) * (10 : ℝ) ^ (dbTh / 10)
      if max_val < noise_th then oneHotRowR (ND + 1) ND
      else oneHotRowR (ND + 1) angle_ind))

/-- `DataEntry.getArrayRms`: `sqrt(numpy.linalg.norm(arr_in) / arr_in.size)`,
where `numpy.linalg.norm` of a 1-D array is the Euclidean norm
`sqrt(sum of squares)`. -/
noncomputable def getArrayRms (arr_in : List ℝ) : ℝ :=
  Real.sqrt (Real.sqrt ((arr_in.map (fun x => x ^ 2)).sum) / arr_in.length)

/-- The normalization step of `DataEntry.__init__`:
`signal = (signal / getArrayRms(signal)) * parameters.INPUT_SIGNAL_RMS`,
with the reference level (from the absent `parameters.py`) as argument. -/
noncomputable def normalizeInputSignal (ref_rms : ℝ) (signal : List ℝ) : List ℝ :=
  signal.map (fun x => x / getArrayRms signal * ref_rms)

/-- The root-mean-square value a signal actually has: the square root of
the mean of the squared samples (the quantity the spec's "RMS-normalized"
invariant speaks about). -/
noncomputable def rootMeanSquare (signal : List ℝ) : ℝ :=
  Real.sqrt ((signal.map (fun x => x ^ 2)).sum / signal.length)

/-- `DataEntry.find_closest_idx_in_array`:
`numpy.abs(array - val).argmin()`. -/
noncomputable def find_closest_idx_in_array (array : List ℝ) (val : ℝ) : ℕ :=
  listArgmin (array.map (fun a => |a - val|))

/-- The metric block at the end of `DataEntry.estimateNetsPerformance`:
`source_md = len([a for a in self.angles if a not in angles]) / len(self.angles)`
then
`source_fa = len([a for a in angles if a not in self.angles]) / len(angles)`.
Python division by a zero length raises `ZeroDivisionError`; that failure
is modelled as `none`, in the order the two divisions execute. -/
def estimatePerformanceMetrics (true_angles recovered_angles : List ℤ) :
    Option (ℚ × ℚ) :=
  if true_angles.length = 0 then none
  else if recovered_angles.length = 0 then none
  else some
    (((true_angles.filter (fun a => a ∉ recovered_angles)).length : ℚ) / (true_angles.length : ℚ),
     ((recovered_angles.filter (fun a => a ∉ true_angles)).length : ℚ) / (recovered_angles.length : ℚ))

/-- Observable steps of the per-signal loop in `DataEntry.__init__`:
the `assert len(signal) == signal_length_samples` check and the rendering
of a signal (normalization, binaural convolution and accumulation into
`res_signal`). -/
inductive InitEvent where
  | lengthCheck (idx : ℕ) (ok : Bool)
  | render (idx : ℕ)
deriving DecidableEq

/-- Whether an `InitEvent` is a rendering step. -/
def isRenderEvent : InitEvent → Bool
  | .render _ => true
  | _ => false

/-- Trace of the `for signal in in_signals` loop of `DataEntry.__init__`,
starting at signal index `i`: each iteration first asserts the signal
length, aborting the construction (`false`) on mismatch, and only then
renders the signal and accumulates it into the mixture before moving to
the next signal. -/
def initLoop (signal_length_samples : ℕ) : ℕ → List (List ℝ) → List InitEvent × Bool
  | _, [] => ([], true)
  | i, signal :: rest =>
      if signal.length = signal_length_samples then
        let r := initLoop signal_length_samples (i + 1) rest
        (InitEvent.lengthCheck i true :: InitEvent.render i :: r.1, r.2)
      else ([InitEvent.lengthCheck i false], false)

theorem getD_le_listMax (l : List ℝ) (j : ℕ) (hj : j < l.length) :
    l.getD j 0 ≤ listMax l := by
  induction l generalizing j with
  | nil => simp at hj
  | cons x rest ih =>
    cases rest with
    | nil =>
      have : j = 0 := by simpa using Nat.lt_one_iff.mp (by simpa using hj)
      subst this
      simp [listMax]
    | cons y t =>
      cases j with
      | zero => simp [listMax]
      | succ k =>
        have hk : k < (y :: t).length := by simpa using hj
        have := ih k hk
        simpa [listMax] using le_trans this (le_max_right x (listMax (y :: t)))

theorem listArgmax_lt_length (l : List ℝ) (h : l ≠ []) :
    listArgmax l < l.length := by
  induction l with
  | nil => exact absurd rfl h
  | cons x rest ih =>
    cases rest with
    | nil => simp [listArgmax]
    | cons y t =>
      by_cases hle : listMax (y :: t) ≤ x
      · simp [listArgmax, hle]
      · have h2 : listArgmax (y :: t) < t.length + 1 := by simpa using ih (by simp)
        simp only [listArgmax, if_neg hle, List.length_cons]
        omega

theorem getD_listArgmax (l : List ℝ) (h : l ≠ []) :
    l.getD (listArgmax l) 0 = listMax l := by
  induction l with
  | nil => exact absurd rfl h
  | cons x rest ih =>
    cases rest with
    | nil => simp [listArgmax, listMax]
    | cons y t =>
      by_cases hle : listMax (y :: t) ≤ x
      · simp [listArgmax, hle, listMax, max_eq_left hle]
      · have hx : x ≤ listMax (y :: t) := le_of_lt (lt_of_not_le hle)
        have hmax : listMax (x :: y :: t) = listMax (y :: t) := by
          simp [listMax, max_eq_right hx]
        have harg : listArgmax (x :: y :: t) = listArgmax (y :: t) + 1 := by
          simp [listArgmax, hle]
        rw [harg, hmax, List.getD_cons_succ, ih (by simp)]

theorem getD_lt_listMax_of_lt_argmax (l : List ℝ) (j : ℕ)
    (hj : j < listArgmax l) : l.getD j 0 < listMax l := by
  induction l generalizing j with
  | nil => simp [listArgmax] at hj
  | cons x rest ih =>
    cases rest with
    | nil => simp [listArgmax] at hj
    | cons y t =>
      by_cases hle : listMax (y :: t) ≤ x
      · simp [listArgmax, hle] at hj
      · have hx : x < listMax (y :: t) := lt_of_not_le hle
        have hmax : listMax (x :: y :: t) = listMax (y :: t) := by
          simp [listMax, max_eq_right (le_of_lt hx)]
        cases j with
        | zero => simpa [hmax] using hx
        | succ k =>
          have hk : k < listArgmax (y :: t) := by
            simp only [listArgmax, if_neg hle] at hj
            omega
          have := ih k hk
          simpa [hmax] using this

theorem listMin_le_getD (l : List ℝ) (j : ℕ) (hj : j < l.length) :
    listMin l ≤ l.getD j 0 := by
  induction l generalizing j with
  | nil => simp at hj
  | cons x rest ih =>
    cases rest with
    | nil =>
      have : j = 0 := by simpa using Nat.lt_one_iff.mp (by simpa using hj)
      subst this
      simp [listMin]
    | cons y t =>
      cases j with
      | zero => simp [listMin]
      | succ k =>
        have hk : k < (y :: t).length := by simpa using hj
        have := ih k hk
        simpa [listMin] using le_trans (min_le_right x (listMin (y :: t))) this

theorem listArgmin_lt_length (l : List ℝ) (h : l ≠ []) :
    listArgmin l < l.length := by
  induction l with
  | nil => exact absurd rfl h
  | cons x rest ih =>
    cases rest with
    | nil => simp [listArgmin]
    | cons y t =>
      by_cases hle : x ≤ listMin (y :: t)
      · simp [listArgmin, hle]
      · have h2 : listArgmin (y :: t) < t.length + 1 := by simpa using ih (by simp)
        simp only [listArgmin, if_neg hle, List.length_cons]
        omega

theorem getD_listArgmin (l : List ℝ) (h : l ≠ []) :
    l.getD (listArgmin l) 0 = listMin l := by
  induction l with
  | nil => exact absurd rfl h
  | cons x rest ih =>
    cases rest with
    | nil => simp [listArgmin, listMin]
    | cons y t =>
      by_cases hle : x ≤ listMin (y :: t)
      · simp [listArgmin, hle, listMin, min_eq_left hle]
      · have hx : listMin (y :: t) ≤ x := le_of_lt (lt_of_not_le hle)
        have hmin : listMin (x :: y :: t) = listMin (y :: t) := by
          simp [listMin, min_eq_right hx]
        have harg : listArgmin (x :: y :: t) = listArgmin (y :: t) + 1 := by
          simp [listArgmin, hle]
        rw [harg, hmin, List.getD_cons_succ, ih (by simp)]

theorem listMin_lt_getD_of_lt_argmin (l : List ℝ) (j : ℕ)
    (hj : j < listArgmin l) : listMin l < l.getD j 0 := by
  induction l generalizing j with
  | nil => simp [listArgmin] at hj
  | cons x rest ih =>
    cases rest with
    | nil => simp [listArgmin] at hj
    | cons y t =>
      by_cases hle : x ≤ listMin (y :: t)
      · simp [listArgmin, hle] at hj
      · have hx : listMin (y :: t) < x := lt_of_not_le hle
        have hmin : listMin (x :: y :: t) = listMin (y :: t) := by
          simp [listMin, min_eq_right (le_of_lt hx)]
        cases j with
        | zero => simpa [hmin] using hx
        | succ k =>
          have hk : k < listArgmin (y :: t) := by
            simp only [listArgmin, if_neg hle] at hj
            omega
          have := ih k hk
          simpa [hmin] using this

theorem getD_range_map {α : Type} (g : ℕ → α) (n i : ℕ) (d : α) (h : i < n) :
    ((List.range n).map g).getD i d = g i := by
  have hl : i < ((List.range n).map g).length := by simpa
  rw [List.getD_eq_getElem _ _ hl]
  simp

theorem getD_map_of_lt {α β : Type} (g : α → β) (l : List α) (i : ℕ) (d : β) (e : α)
    (h : i < l.length) : (l.map g).getD i d = g (l.getD i e) := by
  have hl : i < (l.map g).length := by simpa
  rw [List.getD_eq_getElem _ _ hl, List.getD_eq_getElem _ _ h]
  simp

theorem le_foldr_max (l : List ℕ) (v : ℕ) (h : v ∈ l) : v ≤ l.foldr max 0 := by
  induction l with
  | nil => simp at h
  | cons x rest ih =>
    rcases List.mem_cons.mp h with rfl | hmem
    · exact le_max_left _ _
    · exact le_trans (ih hmem) (le_max_right _ _)

theorem mem_sortedUnique (l : List ℕ) (v : ℕ) : v ∈ sortedUnique l ↔ v ∈ l := by
  constructor
  · intro h
    simpa using (List.mem_filter.mp h).2
  · intro h
    refine List.mem_filter.mpr ⟨?_, by simpa⟩
    exact List.mem_range.mpr (Nat.lt_succ_of_le (le_foldr_max l v h))

theorem sortedUnique_pairwise (l : List ℕ) :
    (sortedUnique l).Pairwise (· < ·) := by
  exact List.Pairwise.sublist (List.filter_sublist _) (List.pairwise_lt_range _)

theorem binGet_maskOfClass_eq_one (m : List (List ℕ)) (v t f : ℕ)
    (h : binGet (maskOfClass m v) t f = 1) : binGet m t f = v := by
  unfold binGet maskOfClass at h
  unfold binGet
  by_cases ht : t < m.length
  · rw [getD_map_of_lt _ _ _ _ [] ht] at h
    by_cases hf : f < (m.getD t []).length
    · rw [getD_map_of_lt _ _ _ _ 0 hf] at h
      by_cases hv : (m.getD t []).getD f 0 = v
      · exact hv
      · rw [if_neg hv] at h
        exact absurd h (by norm_num)
    · have h0 : ((m.getD t []).map (fun x => if x = v then 1 else 0)).getD f 0 = 0 :=
        List.getD_eq_default _ _ (by simpa using le_of_not_lt hf)
      rw [h0] at h
      exact absurd h (by norm_num)
  · have h0 : ((m.map (fun row => row.map (fun x => if x = v then 1 else 0))).getD t []) = [] :=
      List.getD_eq_default _ _ (by simpa using le_of_not_lt ht)
    rw [h0] at h
    simp at h

theorem binGet_maskOfClass_of_eq (m : List (List ℕ)) (v t f : ℕ)
    (ht : t < m.length) (hf : f < (m.getD t []).length)
    (h : binGet m t f = v) : binGet (maskOfClass m v) t f = 1 := by
  unfold binGet maskOfClass
  rw [getD_map_of_lt _ _ _ _ [] ht, getD_map_of_lt _ _ _ _ 0 hf]
  unfold binGet at h
  rw [if_pos h]

theorem listArgmax_of_isOneHotAt (row : List ℝ) (c : ℕ) (h : IsOneHotAt row c) :
    listArgmax row = c := by
  obtain ⟨hc, hval⟩ := h
  have hne : row ≠ [] := List.ne_nil_of_length_pos (Nat.pos_of_ne_zero (by omega))
  have hA : listArgmax row < row.length := listArgmax_lt_length row hne
  have hmax : row.getD (listArgmax row) 0 = listMax row := getD_listArgmax row hne
  by_contra hAc
  have h1 : row.getD c 0 = 1 := by simpa using hval c hc
  have h0 : row.getD (listArgmax row) 0 = 0 := by
    have := hval (listArgmax row) hA
    simpa [hAc] using this
  have hle : row.getD c 0 ≤ listMax row := getD_le_listMax row c hc
  rw [h1, ← hmax, h0] at hle
  norm_num at hle

theorem binGet_dnnTargetToMixedIbm (dnn_target : List (List (List ℝ))) (t f : ℕ)
    (ht : t < (dnn_target.getD 0 []).length) (hf : f < dnn_target.length) :
    binGet (dnnTargetToMixedIbm dnn_target) t f =
      listArgmax ((dnn_target.getD f []).getD t []) := by
  unfold binGet dnnTargetToMixedIbm
  rw [getD_range_map _ _ _ _ ht, getD_range_map _ _ _ _ hf]

theorem dnnTargetToMixedIbm_shape (dnn_target : List (List (List ℝ))) :
    (dnnTargetToMixedIbm dnn_target).length = (dnn_target.getD 0 []).length ∧
      ∀ t, t < (dnn_target.getD 0 []).length →
        ((dnnTargetToMixedIbm dnn_target).getD t []).length = dnn_target.length := by
  constructor
  · simp [dnnTargetToMixedIbm]
  · intro t ht
    unfold dnnTargetToMixedIbm
    rw [getD_range_map _ _ _ _ ht]
    simp

/-- C2: the spec requires the false-alarm metric of
`DataEntry.estimateNetsPerformance` to yield a defined result when no
angles are recovered; the code divides by `len(angles)` unguarded, so an
empty recovered list always aborts with a `ZeroDivisionError` (modelled as
`none`) for every ground-truth list, never producing a defined value. -/
theorem estimatePerformanceMetrics_emptyRecovered_fails (true_angles : List ℤ) :
    estimatePerformanceMetrics true_angles [] = none := by
  cases true_angles <;> simp [estimatePerformanceMetrics]

/-- C8: decoding a mixed class map whose entries stay within the class
domain emits, in ascending class order, exactly the present classes with
pixel count at least the support threshold that are not the noise class,
each with the binary mask of that class and the azimuth
`classIndex * 5 - 90`. -/
theorem mixedIbmToIbms_decode_spec (TH ND : ℕ) (m : List (List ℕ))
    (hdom : ∀ x ∈ m.flatten, x ≤ ND) :
    ∃ vs : List ℕ,
      vs.Pairwise (· < ·) ∧
      (∀ v, v ∈ vs ↔ v ∈ m.flatten ∧ TH ≤ m.flatten.count v ∧ v ≠ ND) ∧
      (mixedIbmToIbms TH ND m).1 = vs.map (maskOfClass m) ∧
      (mixedIbmToIbms TH ND m).2 = vs.map (fun (v : ℕ) => (v : ℤ) * 5 - 90) := by
  refine ⟨(sortedUnique m.flatten).filter
      (fun v => ¬ (m.flatten.count v < TH) ∧ ¬ (ND ≤ v)), ?_, ?_, rfl, rfl⟩
  · exact List.Pairwise.filter _ (sortedUnique_pairwise m.flatten)
  · intro v
    rw [List.mem_filter, mem_sortedUnique]
    simp only [decide_eq_true_eq, not_lt, not_le]
    constructor
    · rintro ⟨hmem, hcnt, hlt⟩
      exact ⟨hmem, hcnt, by omega⟩
    · rintro ⟨hmem, hcnt, hne⟩
      have := hdom v hmem
      exact ⟨hmem, hcnt, by omega⟩

/-- Witness for C8 at a concrete map. -/
theorem mixedIbmToIbms_decode_spec_witness :
    (∀ x ∈ ([[0, 2]] : List (List ℕ)).flatten, x ≤ 2) ∧
      (∃ vs : List ℕ,
        vs.Pairwise (· < ·) ∧
        (∀ v, v ∈ vs ↔ v ∈ ([[0, 2]] : List (List ℕ)).flatten ∧
          1 ≤ ([[0, 2]] : List (List ℕ)).flatten.count v ∧ v ≠ 2) ∧
        (mixedIbmToIbms 1 2 [[0, 2]]).1 = vs.map (maskOfClass [[0, 2]]) ∧
        (mixedIbmToIbms 1 2 [[0, 2]]).2 = vs.map (fun (v : ℕ) => (v : ℤ) * 5 - 90)) :=
  ⟨by decide, mixedIbmToIbms_decode_spec 1 2 [[0, 2]] (by decide)⟩

/-- C10: the binary masks decoded from one mixed class map are pairwise
disjoint: a (time, frequency) bin carries a 1 in at most one of them,
because each mask selects a distinct class value of the map. -/
theorem mixedIbmToIbms_masks_disjoint (TH ND : ℕ) (m : List (List ℕ))
    (i j t f : ℕ) (hij : i < j) (hj : j < (mixedIbmToIbms TH ND m).1.length) :
    ¬ (binGet ((mixedIbmToIbms TH ND m).1.getD i []) t f = 1 ∧
       binGet ((mixedIbmToIbms TH ND m).1.getD j []) t f = 1) := by
  rintro ⟨hone, htwo⟩
  have hlen : (mixedIbmToIbms TH ND m).1.length =
      ((sortedUnique m.flatten).filter
        (fun v => ¬ (m.flatten.count v < TH) ∧ ¬ (ND ≤ v))).length := by
    simp [mixedIbmToIbms]
  set keep := (sortedUnique m.flatten).filter
    (fun v => ¬ (m.flatten.count v < TH) ∧ ¬ (ND ≤ v)) with hkeep
  have hj' : j < keep.length := by rw [← hlen]; exact hj
  have hi' : i < keep.length := lt_trans hij hj'
  have hmask : ∀ n, n < keep.length →
      (mixedIbmToIbms TH ND m).1.getD n [] = maskOfClass m (keep.getD n 0) := by
    intro n hn
    show (keep.map (maskOfClass m)).getD n [] = maskOfClass m (keep.getD n 0)
    exact getD_map_of_lt _ _ _ _ 0 hn
  rw [hmask i hi'] at hone
  rw [hmask j hj'] at htwo
  have hvi : binGet m t f = keep.getD i 0 := binGet_maskOfClass_eq_one _ _ _ _ hone
  have hvj : binGet m t f = keep.getD j 0 := binGet_maskOfClass_eq_one _ _ _ _ htwo
  have hpair : keep.Pairwise (· < ·) :=
    List.Pairwise.filter _ (sortedUnique_pairwise m.flatten)
  have hlt : keep.getD i 0 < keep.getD j 0 := by
    rw [List.getD_eq_getElem _ _ hi', List.getD_eq_getElem _ _ hj']
    exact List.pairwise_iff_getElem.mp hpair i j hi' hj' hij
  rw [← hvi, ← hvj] at hlt
  exact lt_irrefl _ hlt

/-- Witness for C10 at a concrete map with two surviving masks. -/
theorem mixedIbmToIbms_masks_disjoint_witness :
    0 < 1 ∧ 1 < (mixedIbmToIbms 1 38 [[0, 1]]).1.length ∧
      ¬ (binGet ((mixedIbmToIbms 1 38 [[0, 1]]).1.getD 0 []) 0 0 = 1 ∧
         binGet ((mixedIbmToIbms 1 38 [[0, 1]]).1.getD 1 []) 0 0 = 1) :=
  ⟨by decide, by decide,
    mixedIbmToIbms_masks_disjoint 1 38 [[0, 1]] 0 1 0 0 (by decide) (by decide)⟩

/-- C1: for a valid family of one-hot target arrays (one per frequency
channel, the one-hot position of channel `f` at time `t` being `cls f t`),
every class `c` that survives decoding (pixel count at least the positive
support threshold, index below the noise class) gets a mask in
`mixedIbmToIbms (dnnTargetToMixedIbm targets)` whose 1-bins are exactly
the bins whose one-hot row carries its 1 at `c`. -/
theorem dnnTarget_roundTrip (TH ND : ℕ) (targets : List (List (List ℝ)))
    (cls : ℕ → ℕ → ℕ) (hTH : 0 < TH)
    (hone : ∀ f, f < targets.length → ∀ t, t < (targets.getD 0 []).length →
        IsOneHotAt ((targets.getD f []).getD t []) (cls f t))
    (c : ℕ) (hc : c < ND)
    (hcount : TH ≤ (dnnTargetToMixedIbm targets).flatten.count c) :
    ∃ i, i < (mixedIbmToIbms TH ND (dnnTargetToMixedIbm targets)).1.length ∧
      ∀ t f, t < (targets.getD 0 []).length → f < targets.length →
        (binGet ((mixedIbmToIbms TH ND (dnnTargetToMixedIbm targets)).1.getD i []) t f = 1
          ↔ cls f t = c) := by
  set m := dnnTargetToMixedIbm targets with hm
  have hshape := dnnTargetToMixedIbm_shape targets
  have hentry : ∀ t f, t < (targets.getD 0 []).length → f < targets.length →
      binGet m t f = cls f t := by
    intro t f ht hf
    rw [hm, binGet_dnnTargetToMixedIbm targets t f ht hf]
    exact listArgmax_of_isOneHotAt _ _ (hone f hf t ht)
  have hmem : c ∈ m.flatten := by
    have : 0 < m.flatten.count c := lt_of_lt_of_le hTH hcount
    exact List.count_pos_iff.mp this
  set keep := (sortedUnique m.flatten).filter
    (fun v => ¬ (m.flatten.count v < TH) ∧ ¬ (ND ≤ v)) with hkeep
  have hckeep : c ∈ keep := by
    rw [hkeep]
    refine List.mem_filter.mpr ⟨(mem_sortedUnique _ _).mpr hmem, ?_⟩
    simp only [decide_eq_true_eq, not_lt, not_le]
    exact ⟨hcount, hc⟩
  obtain ⟨⟨i, hi⟩, hic⟩ := List.mem_iff_get.mp hckeep
  have hilen : i < (mixedIbmToIbms TH ND m).1.length := by
    show i < (keep.map (maskOfClass m)).length
    simpa using hi
  refine ⟨i, hilen, ?_⟩
  intro t f ht hf
  have hmask : (mixedIbmToIbms TH ND m).1.getD i [] = maskOfClass m c := by
    show (keep.map (maskOfClass m)).getD i [] = maskOfClass m c
    rw [getD_map_of_lt _ _ _ _ 0 hi, List.getD_eq_getElem _ _ hi]
    have hgi : keep[i] = c := hic
    rw [hgi]
  rw [hmask]
  constructor
  · intro h1
    have := binGet_maskOfClass_eq_one m c t f h1
    rw [hentry t f ht hf] at this
    exact this
  · intro hcf
    have hmt : t < m.length := by rw [hshape.1]; exact ht
    have hmf : f < (m.getD t []).length := by rw [hshape.2 t ht]; exact hf
    refine binGet_maskOfClass_of_eq m c t f hmt hmf ?_
    rw [hentry t f ht hf]
    exact hcf

/-- Witness for C1 at a one-channel, one-frame, two-class family. -/
theorem dnnTarget_roundTrip_witness :
    0 < 1 ∧
      (∀ f, f < ([[[(1:ℝ), 0]]] : List (List (List ℝ))).length →
        ∀ t, t < (([[[(1:ℝ), 0]]] : List (List (List ℝ))).getD 0 []).length →
          IsOneHotAt ((([[[(1:ℝ), 0]]] : List (List (List ℝ))).getD f []).getD t [])
            ((fun _ _ => 0) f t)) ∧
      0 < 1 ∧
      1 ≤ (dnnTargetToMixedIbm [[[(1:ℝ), 0]]]).flatten.count 0 ∧
      (∃ i, i < (mixedIbmToIbms 1 1 (dnnTargetToMixedIbm [[[(1:ℝ), 0]]])).1.length ∧
        ∀ t f, t < (([[[(1:ℝ), 0]]] : List (List (List ℝ))).getD 0 []).length →
          f < ([[[(1:ℝ), 0]]] : List (List (List ℝ))).length →
          (binGet ((mixedIbmToIbms 1 1 (dnnTargetToMixedIbm [[[(1:ℝ), 0]]])).1.getD i []) t f = 1
            ↔ (fun _ _ => 0) f t = 0)) := by
  have hone : ∀ f, f < ([[[(1:ℝ), 0]]] : List (List (List ℝ))).length →
      ∀ t, t < (([[[(1:ℝ), 0]]] : List (List (List ℝ))).getD 0 []).length →
        IsOneHotAt ((([[[(1:ℝ), 0]]] : List (List (List ℝ))).getD f []).getD t [])
          ((fun _ _ => 0) f t) := by
    intro f hf t ht
    have hf0 : f = 0 := Nat.lt_one_iff.mp (by simpa using hf)
    have ht0 : t = 0 := Nat.lt_one_iff.mp (by simpa using ht)
    subst hf0
    subst ht0
    simp only [List.getD_cons_zero]
    refine ⟨by norm_num, ?_⟩
    intro k hk
    have hk2 : k < 2 := by simpa using hk
    interval_cases k <;> norm_num [List.getD]
  have henc : dnnTargetToMixedIbm [[[(1:ℝ), 0]]] = [[0]] := by
    have harg : listArgmax [(1:ℝ), 0] = 0 := by
      simp only [listArgmax, listMax]
      norm_num
    simp [dnnTargetToMixedIbm, List.range_succ, harg]
  have hcount : 1 ≤ (dnnTargetToMixedIbm [[[(1:ℝ), 0]]]).flatten.count 0 := by
    rw [henc]
    decide
  exact ⟨by decide, hone, by decide, hcount,
    dnnTarget_roundTrip 1 1 [[[(1:ℝ), 0]]] (fun _ _ => 0) (by decide) hone 0 (by decide) hcount⟩

/-- C6: `find_closest_idx_in_array` on a non-empty stored-azimuth array
returns an in-range index whose entry has minimal absolute difference to
the query, the first such entry in storage order on ties; a query equal to
a stored azimuth returns the first occurrence of that azimuth. -/
theorem find_closest_idx_in_array_spec (array : List ℝ) (val : ℝ) (h : array ≠ []) :
    find_closest_idx_in_array array val < array.length ∧
      (∀ j, j < array.length →
        |array.getD (find_closest_idx_in_array array val) 0 - val| ≤
          |array.getD j 0 - val|) ∧
      (∀ j, j < find_closest_idx_in_array array val →
        |array.getD (find_closest_idx_in_array array val) 0 - val| <
          |array.getD j 0 - val|) ∧
      (val ∈ array →
        array.getD (find_closest_idx_in_array array val) 0 = val ∧
        ∀ j, j < find_closest_idx_in_array array val → array.getD j 0 ≠ val) := by
  set dl := array.map (fun a => |a - val|) with hdl
  have hne : dl ≠ [] := by
    rw [hdl]
    simpa using h
  have hlen : dl.length = array.length := by simp [hdl]
  have hi : find_closest_idx_in_array array val = listArgmin dl := rfl
  have hiLt : listArgmin dl < array.length := by
    rw [← hlen]; exact listArgmin_lt_length dl hne
  have hdlAt : ∀ j, j < array.length → dl.getD j 0 = |array.getD j 0 - val| := by
    intro j hj
    rw [hdl, getD_map_of_lt _ _ _ _ 0 hj]
  have hminAt : dl.getD (listArgmin dl) 0 = listMin dl := getD_listArgmin dl hne
  have habs : |array.getD (listArgmin dl) 0 - val| = listMin dl := by
    rw [← hdlAt _ hiLt, hminAt]
  refine ⟨by rw [hi]; exact hiLt, ?_, ?_, ?_⟩
  · intro j hj
    rw [hi, habs, ← hdlAt j hj]
    exact listMin_le_getD dl j (by rw [hlen]; exact hj)
  · intro j hj
    rw [hi] at hj ⊢
    rw [habs, ← hdlAt j (lt_trans hj hiLt)]
    exact listMin_lt_getD_of_lt_argmin dl j hj
  · intro hv
    obtain ⟨⟨k, hk⟩, hkv⟩ := List.mem_iff_get.mp hv
    have hk0 : array.getD k 0 = val := by
      rw [List.getD_eq_getElem _ _ hk]
      simpa using hkv
    have hz : dl.getD k 0 = 0 := by
      rw [hdlAt k hk, hk0]
      simp
    have hmin0 : listMin dl ≤ 0 := by
      rw [← hz]
      exact listMin_le_getD dl k (by rw [hlen]; exact hk)
    have hnn : (0:ℝ) ≤ |array.getD (listArgmin dl) 0 - val| := abs_nonneg _
    have heq0 : |array.getD (listArgmin dl) 0 - val| = 0 :=
      le_antisymm (by rw [habs]; exact hmin0) hnn
    constructor
    · rw [hi]
      have := abs_eq_zero.mp heq0
      linarith [this]
    · intro j hj
      rw [hi] at hj
      have hlt : listMin dl < dl.getD j 0 := listMin_lt_getD_of_lt_argmin dl j hj
      have : (0:ℝ) < |array.getD j 0 - val| := by
        rw [← hdlAt j (lt_trans hj hiLt)]
        calc (0:ℝ) ≤ listMin dl := by rw [← habs] at *; linarith [hnn, heq0]
          _ < dl.getD j 0 := hlt
      intro hcontra
      rw [hcontra] at this
      simp at this

/-- Witness for C6: querying the exact stored azimuth 5 in [3, 5]. -/
theorem find_closest_idx_in_array_spec_witness :
    ([(3:ℝ), 5] ≠ []) ∧
      (find_closest_idx_in_array [(3:ℝ), 5] 5 < ([(3:ℝ), 5] : List ℝ).length ∧
        (∀ j, j < ([(3:ℝ), 5] : List ℝ).length →
          |([(3:ℝ), 5] : List ℝ).getD (find_closest_idx_in_array [(3:ℝ), 5] 5) 0 - 5| ≤
            |([(3:ℝ), 5] : List ℝ).getD j 0 - 5|) ∧
        (∀ j, j < find_closest_idx_in_array [(3:ℝ), 5] 5 →
          |([(3:ℝ), 5] : List ℝ).getD (find_closest_idx_in_array [(3:ℝ), 5] 5) 0 - 5| <
            |([(3:ℝ), 5] : List ℝ).getD j 0 - 5|) ∧
        ((5:ℝ) ∈ ([(3:ℝ), 5] : List ℝ) →
          ([(3:ℝ), 5] : List ℝ).getD (find_closest_idx_in_array [(3:ℝ), 5] 5) 0 = 5 ∧
          ∀ j, j < find_closest_idx_in_array [(3:ℝ), 5] 5 →
            ([(3:ℝ), 5] : List ℝ).getD j 0 ≠ 5)) :=
  ⟨by simp, find_closest_idx_in_array_spec [(3:ℝ), 5] 5 (by simp)⟩

/-- C7: at every in-range (time, frequency) bin, `updateTargetsFromSignals`
produces the noise-class one-hot row exactly when the maximum source
magnitude at the bin is strictly below
`noise_sgram[bin] * 10^(dbTh/10)`, and otherwise the one-hot row of the
angle class `getAngleIdx` of the first source attaining that maximum. -/
theorem updateTargets_bin_labeling (ND : ℕ) (dbTh : ℝ)
    (sgrams : List (List (List ℝ))) (angles : List ℤ)
    (noise_sgram : List (List ℝ)) (t f : ℕ)
    (hK : sgrams ≠ [])
    (ht : t < (sgrams.getD 0 []).length)
    (hf : f < ((sgrams.getD 0 []).getD 0 []).length) :
    ∃ i, i < sgrams.length ∧
      (∀ j, j < sgrams.length → sgramVal sgrams j t f ≤ sgramVal sgrams i t f) ∧
      (∀ j, j < i → sgramVal sgrams j t f < sgramVal sgrams i t f) ∧
      ((updateTargetsFromSignals ND dbTh sgrams angles noise_sgram).getD f []).getD t [] =
        (if sgramVal sgrams i t f <
            ((noise_sgram.getD t []).getD f 0) * (10 : ℝ) ^ (dbTh / 10)
         then oneHotRowR (ND + 1) ND
         else oneHotRowR (ND + 1) (getAngleIdx (angles.getD i 0))) := by
  set vals := sgrams.map (fun sgram => (sgram.getD t []).getD f 0) with hvals
  have hvne : vals ≠ [] := by
    rw [hvals]
    simpa using hK
  have hvlen : vals.length = sgrams.length := by simp [hvals]
  have hvAt : ∀ j, j < sgrams.length → vals.getD j 0 = sgramVal sgrams j t f := by
    intro j hj
    rw [hvals, getD_map_of_lt _ _ _ _ [] hj]
    rfl
  have hargLt : listArgmax vals < sgrams.length := by
    rw [← hvlen]
    exact listArgmax_lt_length vals hvne
  have hargMax : sgramVal sgrams (listArgmax vals) t f = listMax vals := by
    rw [← hvAt _ hargLt]
    exact getD_listArgmax vals hvne
  refine ⟨listArgmax vals, hargLt, ?_, ?_, ?_⟩
  · intro j hj
    rw [← hvAt j hj, hargMax]
    exact getD_le_listMax vals j (by rw [hvlen]; exact hj)
  · intro j hj
    rw [← hvAt j (lt_trans hj hargLt), hargMax]
    exact getD_lt_listMax_of_lt_argmax vals j hj
  · have hout : ((updateTargetsFromSignals ND dbTh sgrams angles noise_sgram).getD f []).getD t [] =
        (if listMax vals < ((noise_sgram.getD t []).getD f 0) * (10 : ℝ) ^ (dbTh / 10)
         then oneHotRowR (ND + 1) ND
         else oneHotRowR (ND + 1) (getAngleIdx (angles.getD (listArgmax vals) 0))) := by
      unfold updateTargetsFromSignals
      rw [getD_range_map _ _ _ _ hf, getD_range_map _ _ _ _ ht]
    rw [hout, hargMax]

/-- Witness for C7 at a one-source, one-bin instance. -/
theorem updateTargets_bin_labeling_witness :
    ([[[(2:ℝ)]]] : List (List (List ℝ))) ≠ [] ∧
      0 < (([[[(2:ℝ)]]] : List (List (List ℝ))).getD 0 []).length ∧
      0 < ((([[[(2:ℝ)]]] : List (List (List ℝ))).getD 0 []).getD 0 []).length ∧
      (∃ i, i < ([[[(2:ℝ)]]] : List (List (List ℝ))).length ∧
        (∀ j, j < ([[[(2:ℝ)]]] : List (List (List ℝ))).length →
          sgramVal [[[(2:ℝ)]]] j 0 0 ≤ sgramVal [[[(2:ℝ)]]] i 0 0) ∧
        (∀ j, j < i → sgramVal [[[(2:ℝ)]]] j 0 0 < sgramVal [[[(2:ℝ)]]] i 0 0) ∧
        ((updateTargetsFromSignals 37 0 [[[(2:ℝ)]]] [0] [[(0:ℝ)]]).getD 0 []).getD 0 [] =
          (if sgramVal [[[(2:ℝ)]]] i 0 0 <
              ((([[(0:ℝ)]] : List (List ℝ)).getD 0 []).getD 0 0) * (10 : ℝ) ^ ((0:ℝ) / 10)
           then oneHotRowR (37 + 1) 37
           else oneHotRowR (37 + 1) (getAngleIdx (([0] : List ℤ).getD i 0)))) :=
  ⟨by simp, by simp, by simp,
    updateTargets_bin_labeling 37 0 [[[(2:ℝ)]]] [0] [[(0:ℝ)]] 0 0 (by simp) (by simp) (by simp)⟩

/-- C4 (amended): the targets built by `updateTargetsFromSignals` form one
array per frequency channel with one row per time frame, and every row has
width `ND + 1` — one column per grid direction plus the noise column —
independent of the number K of sources. -/
theorem updateTargets_shape (ND : ℕ) (dbTh : ℝ) (sgrams : List (List (List ℝ)))
    (angles : List ℤ) (noise_sgram : List (List ℝ)) (f t : ℕ)
    (hf : f < ((sgrams.getD 0 []).getD 0 []).length)
    (ht : t < (sgrams.getD 0 []).length) :
    (updateTargetsFromSignals ND dbTh sgrams angles noise_sgram).length =
        ((sgrams.getD 0 []).getD 0 []).length ∧
      ((updateTargetsFromSignals ND dbTh sgrams angles noise_sgram).getD f []).length =
        (sgrams.getD 0 []).length ∧
      (((updateTargetsFromSignals ND dbTh sgrams angles noise_sgram).getD f []).getD t []).length =
        ND + 1 := by
  refine ⟨by simp [updateTargetsFromSignals], ?_, ?_⟩
  · unfold updateTargetsFromSignals
    rw [getD_range_map _ _ _ _ hf]
    simp
  · unfold updateTargetsFromSignals
    rw [getD_range_map _ _ _ _ hf, getD_range_map _ _ _ _ ht]
    simp only [apply_ite List.length, oneHotRowR, List.length_map, List.length_range, ite_self]

/-- Witness for C4's amended shape statement. -/
theorem updateTargets_shape_witness :
    0 < ((([[[(1:ℝ)]]] : List (List (List ℝ))).getD 0 []).getD 0 []).length ∧
      0 < (([[[(1:ℝ)]]] : List (List (List ℝ))).getD 0 []).length ∧
      ((updateTargetsFromSignals 37 0 [[[(1:ℝ)]]] [0] [[(0:ℝ)]]).length =
          ((([[[(1:ℝ)]]] : List (List (List ℝ))).getD 0 []).getD 0 []).length ∧
        ((updateTargetsFromSignals 37 0 [[[(1:ℝ)]]] [0] [[(0:ℝ)]]).getD 0 []).length =
          (([[[(1:ℝ)]]] : List (List (List ℝ))).getD 0 []).length ∧
        (((updateTargetsFromSignals 37 0 [[[(1:ℝ)]]] [0] [[(0:ℝ)]]).getD 0 []).getD 0 []).length =
          37 + 1) :=
  ⟨by simp, by simp,
    updateTargets_shape 37 0 [[[(1:ℝ)]]] [0] [[(0:ℝ)]] 0 0 (by simp) (by simp)⟩

/-- Counterexample to C4 as stated: with one input source (K = 1) the
target row width is `NUM_OF_DIRECTIONS + 1 = 38`, not `K + 1 = 2`. -/
theorem updateTargets_shape_counterexample :
    (((updateTargetsFromSignals NUM_OF_DIRECTIONS 0 [[[(1:ℝ)]]] [0] [[(0:ℝ)]]).getD 0 []).getD 0
        []).length = 38 ∧
      (38 : ℕ) ≠ 1 + 1 := by
  constructor
  · have hf : 0 < ((([[[(1:ℝ)]]] : List (List (List ℝ))).getD 0 []).getD 0 []).length := by simp
    have ht : 0 < (([[[(1:ℝ)]]] : List (List (List ℝ))).getD 0 []).length := by simp
    unfold updateTargetsFromSignals
    rw [getD_range_map _ _ _ _ hf, getD_range_map _ _ _ _ ht]
    simp only [apply_ite List.length, oneHotRowR, List.length_map, List.length_range, ite_self,
      NUM_OF_DIRECTIONS]
  · decide

/-- C5 (amended): the constructor loop fails at the first signal whose
length differs from the configured sample count, but only after having
rendered and accumulated exactly the signals that precede it: the length
checks are interleaved with rendering, not all performed up front. -/
theorem initLoop_failsAtFirstMismatch (N : ℕ) (sigs : List (List ℝ)) (i0 j : ℕ)
    (hj : j < sigs.length)
    (hbad : (sigs.getD j []).length ≠ N)
    (hgood : ∀ k, k < j → (sigs.getD k []).length = N) :
    (initLoop N i0 sigs).2 = false ∧
      (initLoop N i0 sigs).1.countP isRenderEvent = j := by
  induction sigs generalizing i0 j with
  | nil => simp at hj
  | cons s rest ih =>
    cases j with
    | zero =>
      have hbad0 : s.length ≠ N := by simpa using hbad
      constructor <;> simp [initLoop, hbad0, isRenderEvent]
    | succ k =>
      have hs : s.length = N := by simpa using hgood 0 (Nat.succ_pos k)
      have hk : k < rest.length := by simpa using hj
      have hbadk : (rest.getD k []).length ≠ N := by simpa using hbad
      have hgoodk : ∀ m, m < k → (rest.getD m []).length = N := by
        intro m hm
        simpa using hgood (m + 1) (by omega)
      obtain ⟨h1, h2⟩ := ih (i0 + 1) k hk hbadk hgoodk
      constructor
      · simpa [initLoop, hs] using h1
      · simp [initLoop, hs, List.countP_cons, isRenderEvent, h2]

/-- Witness for C5's amended statement: a valid first signal followed by an
invalid one. -/
theorem initLoop_failsAtFirstMismatch_witness :
    1 < ([[(0:ℝ)], []] : List (List ℝ)).length ∧
      (([[(0:ℝ)], []] : List (List ℝ)).getD 1 []).length ≠ 1 ∧
      (∀ k, k < 1 → (([[(0:ℝ)], []] : List (List ℝ)).getD k []).length = 1) ∧
      ((initLoop 1 0 [[(0:ℝ)], []]).2 = false ∧
        (initLoop 1 0 [[(0:ℝ)], []]).1.countP isRenderEvent = 1) :=
  ⟨by simp, by simp, by intro k hk; interval_cases k; simp,
    initLoop_failsAtFirstMismatch 1 [[(0:ℝ)], []] 0 1 (by simp) (by simp)
      (by intro k hk; interval_cases k; simp)⟩

/-- Counterexample to C5 as stated: with a valid first signal and an
invalid second one, construction fails, yet a render step has already
happened before the failing length check, so not every length is checked
before the first rendering/accumulation. -/
theorem initLoop_checksNotBeforeAllRenders_counterexample :
    (([[(0:ℝ)], []] : List (List ℝ)).getD 1 []).length ≠ 1 ∧
      (initLoop 1 0 [[(0:ℝ)], []]).2 = false ∧
      (initLoop 1 0 [[(0:ℝ)], []]).1.countP isRenderEvent ≠ 0 := by
  refine ⟨by simp, ?_, ?_⟩ <;>
    simp [initLoop, isRenderEvent, List.countP_cons]

/-- C9: along any allocation run in which each draw excludes all
previously drawn angles, every drawn angle lies on the grid
{-90, -85, ..., 90} (bounds plus step-5 divisibility of angle + 90) and
the drawn angles are pairwise distinct. -/
theorem getRandomAngle_grid_unique (as : List ℤ) (h : validAngleTrace as) :
    (∀ i, i < as.length →
        -90 ≤ as.getD i 0 ∧ as.getD i 0 ≤ 90 ∧ (5 : ℤ) ∣ (as.getD i 0 + 90)) ∧
      List.Pairwise (fun a b => a ≠ b) as := by
  have hgrid : ∀ a ∈ pythonRange (-90) (90 + 5) 5,
      -90 ≤ a ∧ a ≤ 90 ∧ (5 : ℤ) ∣ (a + 90) := by
    intro a ha
    unfold pythonRange at ha
    obtain ⟨kk, hkk, rfl⟩ := List.mem_map.mp ha
    have h37 : ((90 + 5 - (-90 : ℤ) + 5 - 1) / 5).toNat = 37 := by decide
    have hk : kk < 37 := by
      have h2 := List.mem_range.mp hkk
      rw [h37] at h2
      exact h2
    refine ⟨by omega, by omega, by omega⟩
  constructor
  · intro i hi
    have hmem := h i hi
    exact hgrid _ (List.mem_filter.mp hmem).1
  · rw [List.pairwise_iff_getElem]
    intro i j hi hj hij
    have hmem := h j hj
    have hnot : as.getD j 0 ∉ as.take j := by
      have := (List.mem_filter.mp hmem).2
      simpa using this
    intro heq
    apply hnot
    rw [List.getD_eq_getElem _ _ hj, ← heq]
    have hlen : i < (as.take j).length := by
      rw [List.length_take]
      omega
    have htake : (as.take j)[i] = as[i] := List.getElem_take as
    rw [← htake]
    exact List.getElem_mem hlen

/-- Witness for C9 at a concrete two-draw run. -/
theorem getRandomAngle_grid_unique_witness :
    validAngleTrace [-90, 0] ∧
      ((∀ i, i < ([-90, 0] : List ℤ).length →
          -90 ≤ ([-90, 0] : List ℤ).getD i 0 ∧ ([-90, 0] : List ℤ).getD i 0 ≤ 90 ∧
            (5 : ℤ) ∣ (([-90, 0] : List ℤ).getD i 0 + 90)) ∧
        List.Pairwise (fun a b => a ≠ b) ([-90, 0] : List ℤ)) := by
  have hv : validAngleTrace [-90, 0] := by
    unfold validAngleTrace getRandomAnglePossible pythonRange
    decide
  exact ⟨hv, getRandomAngle_grid_unique [-90, 0] hv⟩

/-- C3 is contradicted by the code: `getArrayRms` divides the Euclidean
norm (not the sum of squares) by the size, so the normalization step
leaves a true RMS of `ref · (Σ x²)^(1/4)` rather than `ref`; on the
non-zero one-sample signal `[2]` with reference level 1 the normalized
signal's root-mean-square is √2, not 1. -/
theorem normalizeInputSignal_rms_bug :
    rootMeanSquare (normalizeInputSignal 1 [2]) ≠ 1 := by
  have hsum : (([(2:ℝ)]).map (fun x => x ^ 2)).sum = 4 := by norm_num
  have hs4 : Real.sqrt 4 = 2 := by
    rw [show (4:ℝ) = 2 ^ 2 by norm_num]
    exact Real.sqrt_sq (by norm_num)
  have hrms : getArrayRms [2] = Real.sqrt 2 := by
    unfold getArrayRms
    rw [hsum]
    norm_num [hs4]
  have hs2pos : (0:ℝ) < Real.sqrt 2 := Real.sqrt_pos.mpr (by norm_num)
  have hdiv : (2:ℝ) / Real.sqrt 2 = Real.sqrt 2 := by
    rw [eq_comm, eq_div_iff (ne_of_gt hs2pos)]
    exact Real.mul_self_sqrt (by norm_num)
  have hnorm : normalizeInputSignal 1 [2] = [Real.sqrt 2] := by
    unfold normalizeInputSignal
    rw [hrms]
    simp [hdiv]
  have hpow : (Real.sqrt 2) ^ 2 = 2 := Real.sq_sqrt (by norm_num)
  have hsum2 : (([Real.sqrt 2]).map (fun x => x ^ 2)).sum = 2 := by
    simp [hpow]
  have hgoal : rootMeanSquare [Real.sqrt 2] = Real.sqrt 2 := by
    unfold rootMeanSquare
    rw [hsum2]
    norm_num
  rw [hnorm, hgoal]
  intro hcontra
  have h2 : (2:ℝ) = 1 := by
    have hc := congrArg (fun x : ℝ => x ^ 2) hcontra
    simp only [hpow, one_pow] at hc
    exact hc
  norm_num at h2

end DataEntry
